import Mathlib

/-!
Shallow embedding of `src/image_to_gb_tiles.py`, a converter from grayscale
images to Game-Boy-style 8×8 two-bit-plane tiles with tile deduplication.

Modelling conventions:
* Python unbounded `int` grayscale samples and thresholds are `ℤ`
  (comparisons only); palette entries and packed bytes are `ℕ`.
* A Python `bytes` object is a `List ℕ` whose entries are < 256; the
  `bytes(...)` constructor, which raises `ValueError` on an entry ≥ 256, is
  modelled by `write_indices_to_file` returning `Except`.
* The generator `grid_8x8_segments` materialises its output list; its two
  `assert` statements (which raise uncaught `AssertionError` in Python)
  become the `Except` error branch.
* `list(set(tile_set))` has an implementation-defined order in Python; the
  embedding instantiates it with first-occurrence order (`set_list`), one
  admissible order, on which none of the proved properties depend.
* File I/O is modelled by recording the byte contents that `main` writes;
  an `IOError` from the OS is environmental and out of scope.
-/

namespace ImageToGbTiles

/-- Python `MAX_GB_TILES: int = 255`. -/
def MAX_GB_TILES : ℕ := 255

/-- Python `DEFAULT_PALETTE: Palette = (0, 1, 2, 3)`. -/
def DEFAULT_PALETTE : ℕ × ℕ × ℕ × ℕ := (0, 1, 2, 3)

/-- Python `DEFAULT_THRESHOLDS: Thresholds = (63, 127, 191)`. -/
def DEFAULT_THRESHOLDS : ℤ × ℤ × ℤ := (63, 127, 191)

/-- Python `grayscale_to_palette(value, palette, thresholds)`:
`if value <= low: palette[0] elif value <= mid: palette[1]
elif value <= high: palette[2] else: palette[3]`. -/
def grayscale_to_palette (value : ℤ) (palette : ℕ × ℕ × ℕ × ℕ)
    (thresholds : ℤ × ℤ × ℤ) : ℕ :=
  if value ≤ thresholds.1 then palette.1
  else if value ≤ thresholds.2.1 then palette.2.1
  else if value ≤ thresholds.2.2 then palette.2.2.1
  else palette.2.2.2

/-- One step of the inner loop of `convert_grayscale_to_tile_set`:
`row_byte1 = (row_byte1 << 1) | (value & 1)` and
`row_byte2 = (row_byte2 << 1) | ((value & 2) >> 1)`. -/
def encode_row_step (acc : ℕ × ℕ) (value : ℕ) : ℕ × ℕ :=
  ((acc.1 <<< 1) ||| (value &&& 1), (acc.2 <<< 1) ||| ((value &&& 2) >>> 1))

/-- The `for value in row` loop: both row bytes accumulated from `(0, 0)`. -/
def encode_tile_row (row : List ℕ) : ℕ × ℕ :=
  row.foldl encode_row_step (0, 0)

/-- The `for row in tile` loop of `convert_grayscale_to_tile_set`: appends
`row_byte1` then `row_byte2` for each row, top to bottom. -/
def encode_tile (tile : List (List ℕ)) : List ℕ :=
  tile.flatMap fun row => [(encode_tile_row row).1, (encode_tile_row row).2]

/-- The segment comprehension in `grid_8x8_segments`:
`[[grid[y][x] for x in range(i, i + 8)] for y in range(j, j + 8)]`
with `j = 8 * tj`, `i = 8 * ti`.  Out-of-range indices (never exercised on a
rectangular grid passing the asserts) default like `List.getD`. -/
def segment_at [Inhabited α] (grid : List (List α)) (tj ti : ℕ) :
    List (List α) :=
  (List.range 8).map fun y =>
    (List.range 8).map fun x =>
      (grid.getD (8 * tj + y) []).getD (8 * ti + x) default

/-- The double loop `for j in range(0, height, 8): for i in range(0, width, 8)`
of `grid_8x8_segments`, reindexed by tile coordinates (`height` and `width`
are multiples of 8 whenever the asserts pass, so `range(0, height, 8)` has
exactly `height / 8` elements). -/
def grid_segments_list [Inhabited α] (grid : List (List α)) :
    List (List (List α)) :=
  (List.range (grid.length / 8)).flatMap fun tj =>
    (List.range (grid.headI.length / 8)).map fun ti => segment_at grid tj ti

/-- Which of the two `assert` statements in `grid_8x8_segments` fired. -/
inductive GridError : Type
| heightAssert : GridError
| widthAssert : GridError
deriving DecidableEq

/-- Python `grid_8x8_segments(grid)`: asserts
`height > 0 and not height % 8`, then `width > 0 and not width % 8`
(`width = len(grid[0])`), then yields the 8×8 segments in raster order.
An assertion failure is an uncaught `AssertionError`, modelled as `.error`. -/
def grid_8x8_segments [Inhabited α] (grid : List (List α)) :
    Except GridError (List (List (List α))) :=
  if ¬(0 < grid.length ∧ grid.length % 8 = 0) then .error .heightAssert
  else if ¬(0 < grid.headI.length ∧ grid.headI.length % 8 = 0) then
    .error .widthAssert
  else .ok (grid_segments_list grid)

/-- One step of building `list(set(tile_set))`, instantiated with
first-occurrence order (the Python order is implementation-defined;
no proved property depends on the choice). -/
def set_insert [DecidableEq α] (acc : List α) (t : α) : List α :=
  if t ∈ acc then acc else acc ++ [t]

/-- `list(set(l))`, instantiated with first-occurrence order. -/
def set_list [DecidableEq α] (l : List α) : List α :=
  l.foldl set_insert []

/-- The dictionary `index_lookup = {tile: i for i, tile in enumerate(l)}`
read at key `t`: the position of the first occurrence of `t` in `l`
(`l` has no duplicates at the call site, so first = only). -/
def index_lookup [DecidableEq α] (l : List α) (t : α) : ℕ :=
  match l with
  | [] => 0
  | x :: xs => if x = t then 0 else index_lookup xs t + 1

/-- Python `reduce_tile_set(tile_set)`: `reduced_set = list(set(tile_set))`,
`index_lookup = {tile: i for i, tile in enumerate(reduced_set)}`,
`indices = [index_lookup[tile] for tile in tile_set]`. -/
def reduce_tile_set (tile_set : List (List ℕ)) : List (List ℕ) × List ℕ :=
  let reduced_set := set_list tile_set
  (reduced_set, tile_set.map fun tile => index_lookup reduced_set tile)

/-- The grayscale error raised (or assertion crash) inside
`convert_grayscale_to_tile_set`. -/
inductive ConvError : Type
| dimensionError : ConvError
| gridAssert : GridError → ConvError
deriving DecidableEq

/-- The `palette_values` matrix built in `convert_grayscale_to_tile_set`:
`[[grayscale_to_palette(pixels[i, j], ...) for i in range(width)]
for j in range(height)]` (`pixels x y` is the sample at column `x`, row `y`). -/
def palette_matrix (width height : ℕ) (pixels : ℕ → ℕ → ℤ)
    (palette : ℕ × ℕ × ℕ × ℕ) (thresholds : ℤ × ℤ × ℤ) : List (List ℕ) :=
  (List.range height).map fun j =>
    (List.range width).map fun i =>
      grayscale_to_palette (pixels i j) palette thresholds

/-- The `tile_set` list built by the `for tile in grid_8x8_segments(...)` loop
before deduplication: every 8×8 segment packed into its 16 bytes. -/
def image_encoded_tiles (width height : ℕ) (pixels : ℕ → ℕ → ℤ)
    (palette : ℕ × ℕ × ℕ × ℕ) (thresholds : ℤ × ℤ × ℤ) : List (List ℕ) :=
  (grid_segments_list
    (palette_matrix width height pixels palette thresholds)).map encode_tile

/-- Python `convert_grayscale_to_tile_set(image, palette, thresholds)`:
raises `ImageError` when `width % 8 or height % 8`; otherwise quantizes,
tiles, packs and deduplicates.  The `assert` crashes inside the tiling
generator surface as `.gridAssert`. -/
def convert_grayscale_to_tile_set (width height : ℕ) (pixels : ℕ → ℕ → ℤ)
    (palette : ℕ × ℕ × ℕ × ℕ) (thresholds : ℤ × ℤ × ℤ) :
    Except ConvError (List (List ℕ) × List ℕ) :=
  if width % 8 ≠ 0 ∨ height % 8 ≠ 0 then .error .dimensionError
  else
    match grid_8x8_segments
        (palette_matrix width height pixels palette thresholds) with
    | .error e => .error (.gridAssert e)
    | .ok tiles => .ok (reduce_tile_set (tiles.map encode_tile))

/-- Python `write_tile_set_to_file`: the bytes written are the concatenation
of the tiles (each tile is already a valid `bytes` object). -/
def write_tile_set_to_file (tile_set : List (List ℕ)) : List ℕ :=
  tile_set.flatten

/-- Python `write_indices_to_file`: `out.write(bytes(indices))`.
`bytes(indices)` raises `ValueError` when some index is ≥ 256; that
exception is not an `IOError`, so `main` does not catch it. -/
def write_indices_to_file (indices : List ℕ) : Except Unit (List ℕ) :=
  if indices.all fun i => i < 256 then .ok indices else .error ()

/-- Observable outcome of one run of `main`: contents successfully written to
the tile-set file and the indices file (`none` when the write never
completed), whether the capacity warning was printed, and whether the process
terminated normally. -/
structure RunResult : Type where
  tileSetFile : Option (List ℕ)
  indicesFile : Option (List ℕ)
  capacityWarning : Bool
  exitOk : Bool
deriving DecidableEq

/-- The part of `main` after `convert_grayscale_to_tile_set` returns:
on `ImageError` (or an assertion crash) it exits with no file written;
otherwise it warns when `len(tile_set) > MAX_GB_TILES`, writes the tile-set
file, then writes the indices file — where `bytes(indices)` may raise an
uncaught `ValueError` after the indices file was opened but before its bytes
were written. -/
def main_emit (conv : Except ConvError (List (List ℕ) × List ℕ)) : RunResult :=
  match conv with
  | .error _ => ⟨none, none, false, false⟩
  | .ok (tile_set, indices) =>
    let warn := decide (MAX_GB_TILES < tile_set.length)
    let tsBytes := write_tile_set_to_file tile_set
    match write_indices_to_file indices with
    | .ok ib => ⟨some tsBytes, some ib, warn, true⟩
    | .error _ => ⟨some tsBytes, none, warn, false⟩

/-- Python `main`, from a successfully loaded grayscale image onward. -/
def main_run (width height : ℕ) (pixels : ℕ → ℕ → ℤ)
    (palette : ℕ × ℕ × ℕ × ℕ) (thresholds : ℤ × ℤ × ℤ) : RunResult :=
  main_emit (convert_grayscale_to_tile_set width height pixels palette
    thresholds)

/-- Modelled from the spec: the repository contains no decoder, so the
"inverse of the Tile Encoder" of the round-trip law is built from the spec's
words — pixel `(r, k)` of the decoded tile takes bit 0 from bit `7 - k` of
byte `2r` (plane 1) and bit 1 from bit `7 - k` of byte `2r + 1` (plane 2). -/
def decode_tile (bs : List ℕ) : List (List ℕ) :=
  (List.range 8).map fun r =>
    (List.range 8).map fun k =>
      ((bs.getD (2 * r) 0).testBit (7 - k)).toNat +
        2 * ((bs.getD (2 * r + 1) 0).testBit (7 - k)).toNat

/-- A list of 257 pairwise-distinct well-formed encoded tiles (16 bytes each),
used to exhibit the capacity overflow of the index file. -/
def big_tile_list : List (List ℕ) :=
  (List.range 257).map fun n => n % 256 :: n / 256 :: List.replicate 14 0

/-- Sanity check of the embedding on concrete data: two distinct tiles with
one repeat deduplicate to two unique tiles and indices `[0, 1, 0]`. -/
theorem reduce_tile_set_sanity :
    reduce_tile_set [[1], [2], [1]] = ([[1], [2]], [0, 1, 0]) := by decide

/-- C3: for every grayscale sample `v`, ascending thresholds
`(low, mid, high)` and palette `(p0, p1, p2, p3)`, the Quantizer returns `p0`
when `v ≤ low`, `p1` when `low < v ≤ mid`, `p2` when `mid < v ≤ high` and
`p3` when `v > high`; being a total Lean function of an arbitrary integer
`v`, it has no side effects and no error case. -/
theorem C3_quantizer_buckets (v low mid high : ℤ) (p0 p1 p2 p3 : ℕ)
    (hlm : low ≤ mid) (hmh : mid ≤ high) :
    (v ≤ low →
      grayscale_to_palette v (p0, p1, p2, p3) (low, mid, high) = p0) ∧
    (low < v → v ≤ mid →
      grayscale_to_palette v (p0, p1, p2, p3) (low, mid, high) = p1) ∧
    (mid < v → v ≤ high →
      grayscale_to_palette v (p0, p1, p2, p3) (low, mid, high) = p2) ∧
    (high < v →
      grayscale_to_palette v (p0, p1, p2, p3) (low, mid, high) = p3) := by
  simp only [grayscale_to_palette]
  refine ⟨?_, ?_, ?_, ?_⟩ <;> intros <;> split_ifs <;> omega

/-- Witness for C3 at `v = 100`, thresholds `(63, 127, 191)`,
palette `(4, 5, 6, 7)`. -/
theorem C3_quantizer_buckets_witness :
    ((100 : ℤ) ≤ 63 →
      grayscale_to_palette 100 (4, 5, 6, 7) (63, 127, 191) = 4) ∧
    ((63 : ℤ) < 100 → (100 : ℤ) ≤ 127 →
      grayscale_to_palette 100 (4, 5, 6, 7) (63, 127, 191) = 5) ∧
    ((127 : ℤ) < 100 → (100 : ℤ) ≤ 191 →
      grayscale_to_palette 100 (4, 5, 6, 7) (63, 127, 191) = 6) ∧
    ((191 : ℤ) < 100 →
      grayscale_to_palette 100 (4, 5, 6, 7) (63, 127, 191) = 7) :=
  C3_quantizer_buckets 100 63 127 191 4 5 6 7 (by decide) (by decide)

/-- C8 counterexample: with the non-monotone palette `(1, 0, 0, 0)` and the
default ascending thresholds, the Quantizer output at `v1 = 0` exceeds the
output at `v2 = 255`, so the claim quantified over *every* palette is
false. -/
theorem C8_counterexample :
    (0 : ℤ) ≤ 255 ∧ (63 : ℤ) ≤ 127 ∧ (127 : ℤ) ≤ 191 ∧
    ¬ grayscale_to_palette 0 (1, 0, 0, 0) (63, 127, 191) ≤
        grayscale_to_palette 255 (1, 0, 0, 0) (63, 127, 191) := by
  decide

/-- C8 (amended): for `v1 ≤ v2`, ascending thresholds, and a palette whose
four entries are non-decreasing, the Quantizer output at `v1` is at most the
output at `v2` — the quantized value is a non-decreasing step function of the
sample. -/
theorem C8_quantizer_monotone (v1 v2 low mid high : ℤ) (p0 p1 p2 p3 : ℕ)
    (hv : v1 ≤ v2) (hlm : low ≤ mid) (hmh : mid ≤ high)
    (h01 : p0 ≤ p1) (h12 : p1 ≤ p2) (h23 : p2 ≤ p3) :
    grayscale_to_palette v1 (p0, p1, p2, p3) (low, mid, high) ≤
      grayscale_to_palette v2 (p0, p1, p2, p3) (low, mid, high) := by
  simp only [grayscale_to_palette]
  split_ifs <;> omega

/-- Witness for the amended C8 at `v1 = 50`, `v2 = 200`, default thresholds
and the identity palette. -/
theorem C8_quantizer_monotone_witness :
    grayscale_to_palette 50 (0, 1, 2, 3) (63, 127, 191) ≤
      grayscale_to_palette 200 (0, 1, 2, 3) (63, 127, 191) :=
  C8_quantizer_monotone 50 200 63 127 191 0 1 2 3 (by decide) (by decide)
    (by decide) (by decide) (by decide) (by decide)

/-- Membership in one `set_insert` step. -/
theorem mem_set_insert [DecidableEq α] (acc : List α) (x t : α) :
    t ∈ set_insert acc x ↔ t ∈ acc ∨ t = x := by
  simp only [set_insert]
  split_ifs with h
  · constructor
    · exact Or.inl
    · rintro (h1 | rfl)
      · exact h1
      · exact h
  · simp [List.mem_append]

/-- Every element of the accumulator or of the remaining input survives the
`set_list` fold. -/
theorem mem_foldl_set_insert [DecidableEq α] (l : List α) :
    ∀ (acc : List α) (t : α), t ∈ acc ∨ t ∈ l →
      t ∈ l.foldl set_insert acc := by
  induction l with
  | nil =>
    intro acc t h
    rcases h with h | h
    · simpa using h
    · simp at h
  | cons x xs ih =>
    intro acc t h
    simp only [List.foldl_cons]
    apply ih
    rcases h with h | h
    · exact Or.inl ((mem_set_insert acc x t).2 (Or.inl h))
    · rcases List.mem_cons.1 h with rfl | h
      · exact Or.inl ((mem_set_insert acc t t).2 (Or.inr rfl))
      · exact Or.inr h

/-- `set_list` keeps every element of its input. -/
theorem mem_set_list [DecidableEq α] {l : List α} {t : α} (h : t ∈ l) :
    t ∈ set_list l :=
  mem_foldl_set_insert l [] t (Or.inr h)

/-- Reading the position dictionary back: for `t ∈ l`, the entry of `l` at
`index_lookup l t` is `t` itself, and the position is in range. -/
theorem getD_index_lookup [DecidableEq α] (l : List α) (t : α) (d : α)
    (h : t ∈ l) :
    index_lookup l t < l.length ∧ l.getD (index_lookup l t) d = t := by
  induction l with
  | nil => simp at h
  | cons x xs ih =>
    simp only [index_lookup]
    split_ifs with hx
    · simpa using hx
    · have hxs : t ∈ xs := by
        rcases List.mem_cons.1 h with rfl | hm
        · exact absurd rfl hx
        · exact hm
      rcases ih hxs with ⟨h1, h2⟩
      exact ⟨by simpa using Nat.succ_lt_succ h1, by simpa using h2⟩

/-- C2: for every finite sequence of encoded tiles, `reduce_tile_set` returns
an index list of the same length as the input, and looking the `i`-th index
up in the reduced tile set yields the original tile at position `i`
(dedup round-trip law). -/
theorem C2_dedup_roundtrip (tile_set : List (List ℕ)) (i : ℕ)
    (h : i < tile_set.length) :
    (reduce_tile_set tile_set).2.length = tile_set.length ∧
    (reduce_tile_set tile_set).1.getD
        ((reduce_tile_set tile_set).2.getD i 0) [] =
      tile_set.getD i [] := by
  refine ⟨by simp [reduce_tile_set], ?_⟩
  simp only [reduce_tile_set]
  have hi2 : i < (tile_set.map fun tile =>
      index_lookup (set_list tile_set) tile).length := by
    simpa using h
  rw [List.getD_eq_getElem _ 0 hi2, List.getElem_map,
    List.getD_eq_getElem _ [] h]
  have hmem : tile_set[i] ∈ set_list tile_set :=
    mem_set_list (List.getElem_mem h)
  exact (getD_index_lookup (set_list tile_set) tile_set[i] [] hmem).2

/-- Witness for C2 on the concrete sequence `[[1], [2], [1]]` at `i = 2`. -/
theorem C2_dedup_roundtrip_witness :
    (reduce_tile_set [[1], [2], [1]]).2.length = ([[1], [2], [1]] :
      List (List ℕ)).length ∧
    (reduce_tile_set [[1], [2], [1]]).1.getD
        ((reduce_tile_set [[1], [2], [1]]).2.getD 2 0) [] =
      ([[1], [2], [1]] : List (List ℕ)).getD 2 [] :=
  C2_dedup_roundtrip [[1], [2], [1]] 2 (by decide)

/-- Or-ing a bit below an even number is addition. -/
theorem two_mul_lor_of_lt_two (a b : ℕ) (hb : b < 2) :
    (2 * a) ||| b = 2 * a + b := by
  apply Nat.eq_of_testBit_eq
  intro i
  cases i with
  | zero =>
    rw [Nat.testBit_or]
    simp only [Nat.testBit_zero]
    have e1 : 2 * a % 2 = 0 := Nat.mul_mod_right 2 a
    have e2 : b % 2 = b := Nat.mod_eq_of_lt hb
    have e3 : (2 * a + b) % 2 = b := by omega
    rw [e1, e2, e3]
    simp
  | succ i =>
    rw [Nat.testBit_or, ← Nat.testBit_div_two, ← Nat.testBit_div_two,
      ← Nat.testBit_div_two]
    have e1 : 2 * a / 2 = a := by omega
    have e2 : b / 2 = 0 := by omega
    have e3 : (2 * a + b) / 2 = a := by omega
    rw [e1, e2, e3, Nat.zero_testBit, Bool.or_false]

/-- The body of the packing loop in arithmetic form: shift in the low bit
(plane 1) and the second bit (plane 2) of the pixel value. -/
theorem encode_row_step_eq (acc : ℕ × ℕ) (v : ℕ) :
    encode_row_step acc v =
      (2 * acc.1 + v % 2, 2 * acc.2 + v / 2 % 2) := by
  have hsh : ∀ a : ℕ, a <<< 1 = 2 * a := by
    intro a
    rw [Nat.shiftLeft_eq]
    ring
  have h1 : (acc.1 <<< 1) ||| (v &&& 1) = 2 * acc.1 + v % 2 := by
    rw [hsh, Nat.and_one_is_mod]
    exact two_mul_lor_of_lt_two _ _ (Nat.mod_lt _ (by omega))
  have h2 : (acc.2 <<< 1) ||| ((v &&& 2) >>> 1) = 2 * acc.2 + v / 2 % 2 := by
    have e : (v &&& 2) >>> 1 = v / 2 % 2 := by
      rw [Nat.shiftRight_eq_div_pow, pow_one, Nat.and_div_two]
      norm_num
    rw [hsh, e]
    exact two_mul_lor_of_lt_two _ _ (Nat.mod_lt _ (by omega))
  simp only [encode_row_step, h1, h2]

/-- The paired fold of the packing loop splits into two scalar folds, one per
bit plane. -/
theorem encode_tile_row_eq (row : List ℕ) :
    encode_tile_row row =
      (row.foldl (fun a v => 2 * a + v % 2) 0,
        row.foldl (fun a v => 2 * a + v / 2 % 2) 0) := by
  have h : ∀ acc : ℕ × ℕ, row.foldl encode_row_step acc =
      (row.foldl (fun a v => 2 * a + v % 2) acc.1,
        row.foldl (fun a v => 2 * a + v / 2 % 2) acc.2) := by
    induction row with
    | nil => intro acc; rfl
    | cons v vs ih =>
      intro acc
      simp only [List.foldl_cons]
      rw [encode_row_step_eq]
      exact ih _
  exact h (0, 0)

/-- A fold that shifts in one bit per element stays below `2 ^ length`. -/
theorem foldl_bits_lt (g : ℕ → ℕ) (hg : ∀ v, g v < 2) (row : List ℕ) :
    ∀ acc : ℕ, row.foldl (fun a v => 2 * a + g v) acc <
      (acc + 1) * 2 ^ row.length := by
  induction row with
  | nil =>
    intro acc
    simp
  | cons v vs ih =>
    intro acc
    simp only [List.foldl_cons, List.length_cons]
    have h1 := ih (2 * acc + g v)
    have h2 : g v < 2 := hg v
    have h3 : (2 * acc + g v + 1) * 2 ^ vs.length ≤
        (acc + 1) * 2 ^ (vs.length + 1) := by
      have h4 : 2 * acc + g v + 1 ≤ 2 * (acc + 1) := by omega
      calc (2 * acc + g v + 1) * 2 ^ vs.length
          ≤ 2 * (acc + 1) * 2 ^ vs.length :=
            Nat.mul_le_mul_right _ h4
        _ = (acc + 1) * 2 ^ (vs.length + 1) := by ring
    exact Nat.lt_of_lt_of_le h1 h3

/-- Bit `length - 1 - k` of the shift-in fold is the bit contributed by the
`k`-th element: column 0 lands at the most significant position. -/
theorem testBit_foldl_bits (g : ℕ → ℕ) (hg : ∀ v, g v < 2) (row : List ℕ) :
    ∀ k, k < row.length →
      (row.foldl (fun a v => 2 * a + g v) 0).testBit (row.length - 1 - k) =
        decide (g (row.getD k 0) = 1) := by
  induction row using List.reverseRecOn with
  | nil =>
    intro k hk
    simp at hk
  | append_singleton xs x ih =>
    intro k hk
    rw [List.foldl_append]
    simp only [List.foldl_cons, List.foldl_nil, List.length_append,
      List.length_cons, List.length_nil]
    have hgx : g x < 2 := hg x
    by_cases hkx : k = xs.length
    · subst hkx
      have hpos : xs.length + 1 - 1 - xs.length = 0 := by omega
      rw [hpos, Nat.testBit_zero]
      have hmod : (2 * (xs.foldl (fun a v => 2 * a + g v) 0) + g x) % 2 =
          g x := by omega
      rw [hmod, List.getD_append_right xs [x] 0 xs.length (le_refl _)]
      simp
    · have hklt : k < xs.length := by
        simp only [List.length_append, List.length_cons, List.length_nil]
          at hk
        omega
      have hpos : xs.length + 1 - 1 - k = (xs.length - 1 - k) + 1 := by
        omega
      rw [hpos, ← Nat.testBit_div_two]
      have hdiv : (2 * (xs.foldl (fun a v => 2 * a + g v) 0) + g x) / 2 =
          xs.foldl (fun a v => 2 * a + g v) 0 := by omega
      rw [hdiv, List.getD_append xs [x] 0 k hklt]
      exact ih k hklt

/-- `encode_tile` emits two bytes per row. -/
theorem encode_tile_length (tile : List (List ℕ)) :
    (encode_tile tile).length = 2 * tile.length := by
  induction tile with
  | nil => rfl
  | cons row t ih =>
    simp only [encode_tile, List.flatMap_cons] at ih ⊢
    simp only [List.length_append, List.length_cons, List.length_nil,
      List.length_cons, ih]
    omega

/-- Byte `2r` of an encoded tile is the plane-1 byte of row `r`, and byte
`2r + 1` its plane-2 byte. -/
theorem encode_tile_getD (tile : List (List ℕ)) :
    ∀ r, r < tile.length →
      (encode_tile tile).getD (2 * r) 0 =
        (encode_tile_row (tile.getD r [])).1 ∧
      (encode_tile tile).getD (2 * r + 1) 0 =
        (encode_tile_row (tile.getD r [])).2 := by
  induction tile with
  | nil =>
    intro r hr
    simp at hr
  | cons row t ih =>
    intro r hr
    cases r with
    | zero =>
      simp [encode_tile, List.flatMap_cons]
    | succ r =>
      have hr' : r < t.length := by
        simp only [List.length_cons] at hr
        omega
      have e1 : 2 * (r + 1) = 2 * r + 1 + 1 := by ring
      have e2 : 2 * (r + 1) + 1 = (2 * r + 1 + 1) + 1 := by ring
      simp only [encode_tile, List.flatMap_cons, e1, e2,
        List.getD_cons_succ, List.getD_cons_zero, List.cons_append,
        List.nil_append]
      exact ih r hr'

/-- The full bit-placement specification of the encoder: for a row of length
8 at index `r`, bit `7 - k` of the plane-1 byte is bit 0 of the pixel at
column `k`, and bit `7 - k` of the plane-2 byte is bit 1. -/
theorem encode_tile_testBit (tile : List (List ℕ)) (r k : ℕ)
    (hr : r < tile.length) (hrow : (tile.getD r []).length = 8)
    (hk : k < 8) :
    ((encode_tile tile).getD (2 * r) 0).testBit (7 - k) =
      ((tile.getD r []).getD k 0).testBit 0 ∧
    ((encode_tile tile).getD (2 * r + 1) 0).testBit (7 - k) =
      ((tile.getD r []).getD k 0).testBit 1 := by
  obtain ⟨h1, h2⟩ := encode_tile_getD tile r hr
  rw [h1, h2, encode_tile_row_eq]
  have hk' : k < (tile.getD r []).length := by omega
  have hpos : (tile.getD r []).length - 1 - k = 7 - k := by omega
  constructor
  · have hb := testBit_foldl_bits (fun v => v % 2)
      (fun v => Nat.mod_lt _ (by omega)) (tile.getD r []) k hk'
    rw [hpos] at hb
    rw [hb, Nat.testBit_zero]
  · have hb := testBit_foldl_bits (fun v => v / 2 % 2)
      (fun v => Nat.mod_lt _ (by omega)) (tile.getD r []) k hk'
    rw [hpos] at hb
    rw [hb, ← Nat.testBit_div_two, Nat.testBit_zero]

/-- Every byte of an encoded tile with rows of length 8 fits in one byte
(`bytes(tile_bytes)` in the source never raises). -/
theorem encode_tile_bytes_lt (tile : List (List ℕ))
    (hrows : ∀ row ∈ tile, row.length = 8) :
    ∀ b ∈ encode_tile tile, b < 256 := by
  intro b hb
  simp only [encode_tile, List.mem_flatMap] at hb
  obtain ⟨row, hrowmem, hbmem⟩ := hb
  have hlen := hrows row hrowmem
  have hpair : (encode_tile_row row).1 < 256 ∧
      (encode_tile_row row).2 < 256 := by
    rw [encode_tile_row_eq]
    constructor
    · have h := foldl_bits_lt (fun v => v % 2)
        (fun v => Nat.mod_lt _ (by omega)) row 0
      rw [hlen] at h
      simpa using h
    · have h := foldl_bits_lt (fun v => v / 2 % 2)
        (fun v => Nat.mod_lt _ (by omega)) row 0
      rw [hlen] at h
      simpa using h
  simp only [List.mem_cons, List.not_mem_nil, or_false] at hbmem
  rcases hbmem with rfl | rfl
  · exact hpair.1
  · exact hpair.2

/-- C1: for every 8×8 tile of 2-bit pixel values, the encoder produces
exactly 16 bytes (each a valid byte), laid out as a [plane-1, plane-2] pair
per row, rows 0..7 top to bottom; bit `7 - k` (MSB-first position of column
`k`) of byte `2r` is bit 0 of the pixel at row `r`, column `k`, and the same
bit of byte `2r + 1` is bit 1 of that pixel. -/
theorem C1_tile_encoder (tile : List (List ℕ))
    (hlen : tile.length = 8) (hrows : ∀ row ∈ tile, row.length = 8)
    (hvals : ∀ row ∈ tile, ∀ v ∈ row, v < 4) :
    (encode_tile tile).length = 16 ∧
    (∀ b ∈ encode_tile tile, b < 256) ∧
    (∀ r k : ℕ, r < 8 → k < 8 →
      ((encode_tile tile).getD (2 * r) 0).testBit (7 - k) =
        ((tile.getD r []).getD k 0).testBit 0 ∧
      ((encode_tile tile).getD (2 * r + 1) 0).testBit (7 - k) =
        ((tile.getD r []).getD k 0).testBit 1) := by
  refine ⟨?_, encode_tile_bytes_lt tile hrows, ?_⟩
  · rw [encode_tile_length, hlen]
  · intro r k hr hk
    have hr' : r < tile.length := by omega
    have hrowmem : tile.getD r [] ∈ tile := by
      rw [List.getD_eq_getElem _ [] hr']
      exact List.getElem_mem hr'
    exact encode_tile_testBit tile r k hr' (hrows _ hrowmem) hk

/-- Witness for C1 on a concrete tile holding all four pixel values. -/
theorem C1_tile_encoder_witness :
    (encode_tile (List.replicate 8 [0, 1, 2, 3, 3, 2, 1, 0])).length = 16 ∧
    (∀ b ∈ encode_tile (List.replicate 8 [0, 1, 2, 3, 3, 2, 1, 0]),
      b < 256) ∧
    (∀ r k : ℕ, r < 8 → k < 8 →
      ((encode_tile (List.replicate 8 [0, 1, 2, 3, 3, 2, 1, 0])).getD
          (2 * r) 0).testBit (7 - k) =
        (((List.replicate 8 [0, 1, 2, 3, 3, 2, 1, 0]) : List
          (List ℕ)).getD r [] |>.getD k 0).testBit 0 ∧
      ((encode_tile (List.replicate 8 [0, 1, 2, 3, 3, 2, 1, 0])).getD
          (2 * r + 1) 0).testBit (7 - k) =
        (((List.replicate 8 [0, 1, 2, 3, 3, 2, 1, 0]) : List
          (List ℕ)).getD r [] |>.getD k 0).testBit 1) :=
  C1_tile_encoder (List.replicate 8 [0, 1, 2, 3, 3, 2, 1, 0]) (by decide)
    (by decide) (by decide)

/-- C10: the encoder reads only the two least-significant bits of each pixel
value — reducing every cell modulo 4 leaves the encoded bytes unchanged, so
out-of-range palette entries are truncated, not rejected. -/
theorem C10_encoder_mod4 (tile : List (List ℕ)) :
    encode_tile (tile.map fun row => row.map fun v => v % 4) =
      encode_tile tile := by
  have hrow : ∀ row : List ℕ,
      encode_tile_row (row.map fun v => v % 4) = encode_tile_row row := by
    intro row
    simp only [encode_tile_row]
    rw [List.foldl_map]
    have hstep : (fun (acc : ℕ × ℕ) v => encode_row_step acc (v % 4)) =
        encode_row_step := by
      funext acc v
      rw [encode_row_step_eq, encode_row_step_eq]
      simp only [Prod.mk.injEq]
      constructor <;> omega
    rw [hstep]
  induction tile with
  | nil => rfl
  | cons row t ih =>
    simp only [encode_tile, List.map_cons, List.flatMap_cons] at ih ⊢
    rw [hrow row, ih]

/-- C4: decoding the 16 bytes produced by the encoder with the spec's inverse
bit-plane decoding reconstructs the original 8×8 matrix of 2-bit values. -/
theorem C4_encode_decode_roundtrip (tile : List (List ℕ))
    (hlen : tile.length = 8) (hrows : ∀ row ∈ tile, row.length = 8)
    (hvals : ∀ row ∈ tile, ∀ v ∈ row, v < 4) :
    decode_tile (encode_tile tile) = tile := by
  apply List.ext_getElem
  · simp [decode_tile, hlen]
  intro r h1 h2
  have hr : r < 8 := by
    simp only [decode_tile, List.length_map, List.length_range] at h1
    exact h1
  simp only [decode_tile, List.getElem_map, List.getElem_range]
  apply List.ext_getElem
  · have hmem : tile[r] ∈ tile := List.getElem_mem h2
    simp [hrows _ hmem]
  intro k hk1 hk2
  simp only [List.getElem_map, List.getElem_range]
  have hr' : r < tile.length := h2
  have hgetD : tile.getD r [] = tile[r] := List.getD_eq_getElem _ [] hr'
  have hrowmem : tile.getD r [] ∈ tile := by
    rw [hgetD]
    exact List.getElem_mem hr'
  have hrowlen : (tile.getD r []).length = 8 := hrows _ hrowmem
  have hk : k < 8 := by
    rw [← hrowlen]
    rw [hgetD]
    exact hk2
  obtain ⟨hb1, hb2⟩ := encode_tile_testBit tile r k hr' hrowlen hk
  rw [hb1, hb2]
  have hvget : (tile.getD r []).getD k 0 = tile[r][k] := by
    rw [hgetD]
    exact List.getD_eq_getElem _ 0 hk2
  rw [hvget]
  have hv4 : tile[r][k] < 4 :=
    hvals _ (List.getElem_mem h2) _ (List.getElem_mem hk2)
  have hcases : tile[r][k] = 0 ∨ tile[r][k] = 1 ∨ tile[r][k] = 2 ∨
      tile[r][k] = 3 := by omega
  rcases hcases with h | h | h | h <;> rw [h] <;> decide

/-- Witness for C4 on a concrete tile holding all four pixel values. -/
theorem C4_encode_decode_roundtrip_witness :
    decode_tile (encode_tile (List.replicate 8 [3, 2, 1, 0, 0, 1, 2, 3])) =
      List.replicate 8 [3, 2, 1, 0, 0, 1, 2, 3] :=
  C4_encode_decode_roundtrip (List.replicate 8 [3, 2, 1, 0, 0, 1, 2, 3])
    (by decide) (by decide) (by decide)

/-- Length of a raster double loop: `n` outer iterations of `m` inner ones. -/
theorem length_flatMap_range_map (n m : ℕ) (f : ℕ → ℕ → β) :
    ((List.range n).flatMap fun j =>
      (List.range m).map fun i => f j i).length = n * m := by
  induction n with
  | zero => simp
  | succ n ih =>
    rw [List.range_succ, List.flatMap_append]
    simp only [List.length_append, ih, List.flatMap_cons, List.flatMap_nil,
      List.append_nil, List.length_map, List.length_range]
    ring

/-- Element `j * m + i` of a raster double loop is the body at outer index
`j`, inner index `i`. -/
theorem getD_flatMap_range_map (m : ℕ) (f : ℕ → ℕ → β) (d : β) :
    ∀ n j i : ℕ, j < n → i < m →
      ((List.range n).flatMap fun j' =>
        (List.range m).map fun i' => f j' i').getD (j * m + i) d = f j i := by
  intro n
  induction n with
  | zero =>
    intro j i hj hi
    exact absurd hj (by omega)
  | succ n ih =>
    intro j i hj hi
    rw [List.range_succ, List.flatMap_append]
    by_cases hjn : j = n
    · subst hjn
      have hlenge : ((List.range j).flatMap fun j' =>
          (List.range m).map fun i' => f j' i').length ≤ j * m + i := by
        rw [length_flatMap_range_map]
        omega
      rw [List.getD_append_right _ _ _ _ hlenge, length_flatMap_range_map]
      have e : j * m + i - j * m = i := by omega
      simp only [List.flatMap_cons, List.flatMap_nil, List.append_nil, e]
      rw [List.getD_eq_getElem _ _ (by simpa using hi)]
      simp
    · have hjn' : j < n := by omega
      have hlt : j * m + i < ((List.range n).flatMap fun j' =>
          (List.range m).map fun i' => f j' i').length := by
        rw [length_flatMap_range_map]
        have h1 : j * m + i < j * m + m := by omega
        have h2 : j * m + m = (j + 1) * m := by ring
        have h3 : (j + 1) * m ≤ n * m := Nat.mul_le_mul_right m (by omega)
        omega
      rw [List.getD_append _ _ _ _ hlt]
      exact ih j i hjn' hi

/-- C9: on a rectangular `W × H` matrix with both dimensions positive
multiples of 8, the tiler succeeds and produces exactly `(H/8) * (W/8)`
tiles, the tile with tile-row `tj` and tile-column `ti` sitting at flat
position `tj * (W/8) + ti` (outer loop top to bottom, inner left to right)
and holding the 8×8 sub-block at that offset; consequently tile `(0, 1)`
precedes tile `(1, 0)` whenever `W > 8`. -/
theorem C9_tiler_raster_order (grid : List (List ℕ)) (W H : ℕ)
    (hH : grid.length = H) (hW : ∀ row ∈ grid, row.length = W)
    (hHpos : 0 < H) (hH8 : H % 8 = 0) (hWpos : 0 < W) (hW8 : W % 8 = 0) :
    grid_8x8_segments grid = .ok (grid_segments_list grid) ∧
    (grid_segments_list grid).length = (H / 8) * (W / 8) ∧
    (∀ tj ti : ℕ, tj < H / 8 → ti < W / 8 →
      (grid_segments_list grid).getD (tj * (W / 8) + ti) [] =
        segment_at grid tj ti) ∧
    (8 < W → 0 * (W / 8) + 1 < 1 * (W / 8) + 0) := by
  have hheadI : grid.headI.length = W := by
    cases grid with
    | nil =>
      simp only [List.length_nil] at hH
      omega
    | cons x xs => exact hW x (List.mem_cons_self x xs)
  refine ⟨?_, ?_, ?_, ?_⟩
  · simp only [grid_8x8_segments, hH, hheadI]
    rw [if_neg (by omega), if_neg (by omega)]
  · simp only [grid_segments_list, hH, hheadI]
    exact length_flatMap_range_map (H / 8) (W / 8) (segment_at grid)
  · intro tj ti htj hti
    simp only [grid_segments_list, hH, hheadI]
    exact getD_flatMap_range_map (W / 8) (segment_at grid) [] (H / 8) tj ti
      htj hti
  · intro h8
    omega

/-- Witness for C9 on a concrete 16×16 zero matrix. -/
theorem C9_tiler_raster_order_witness :
    grid_8x8_segments (List.replicate 16 (List.replicate 16 (0 : ℕ))) =
      .ok (grid_segments_list
        (List.replicate 16 (List.replicate 16 (0 : ℕ)))) ∧
    (grid_segments_list
      (List.replicate 16 (List.replicate 16 (0 : ℕ)))).length =
      (16 / 8) * (16 / 8) ∧
    (∀ tj ti : ℕ, tj < 16 / 8 → ti < 16 / 8 →
      (grid_segments_list
        (List.replicate 16 (List.replicate 16 (0 : ℕ)))).getD
          (tj * (16 / 8) + ti) [] =
        segment_at (List.replicate 16 (List.replicate 16 (0 : ℕ))) tj ti) ∧
    (8 < 16 → 0 * (16 / 8) + 1 < 1 * (16 / 8) + 0) :=
  C9_tiler_raster_order (List.replicate 16 (List.replicate 16 (0 : ℕ)))
    16 16 (by decide) (by decide) (by decide) (by decide) (by decide)
    (by decide)

/-- The quantized matrix has one row per image row. -/
theorem palette_matrix_length (width height : ℕ) (pixels : ℕ → ℕ → ℤ)
    (palette : ℕ × ℕ × ℕ × ℕ) (thresholds : ℤ × ℤ × ℤ) :
    (palette_matrix width height pixels palette thresholds).length =
      height := by
  simp [palette_matrix]

/-- On a non-empty image the first quantized row has one entry per column. -/
theorem palette_matrix_headI_length (width height : ℕ) (pixels : ℕ → ℕ → ℤ)
    (palette : ℕ × ℕ × ℕ × ℕ) (thresholds : ℤ × ℤ × ℤ) (hh : 0 < height) :
    (palette_matrix width height pixels palette
      thresholds).headI.length = width := by
  obtain ⟨m, rfl⟩ : ∃ m, height = m + 1 := ⟨height - 1, by omega⟩
  rw [palette_matrix, List.range_succ_eq_map]
  simp

/-- C6: whenever the width or the height is zero or not a multiple of 8, the
conversion fails — with the explicit `ImageError` for a non-multiple, or with
the tiler's dimension assertion for a zero dimension — and `main` creates no
output file and writes no byte. -/
theorem C6_dimension_failure (width height : ℕ) (pixels : ℕ → ℕ → ℤ)
    (palette : ℕ × ℕ × ℕ × ℕ) (thresholds : ℤ × ℤ × ℤ)
    (h : width = 0 ∨ height = 0 ∨ width % 8 ≠ 0 ∨ height % 8 ≠ 0) :
    (∃ e, convert_grayscale_to_tile_set width height pixels palette
        thresholds = .error e) ∧
    (main_run width height pixels palette thresholds).tileSetFile = none ∧
    (main_run width height pixels palette thresholds).indicesFile = none := by
  have hconv : ∃ e, convert_grayscale_to_tile_set width height pixels palette
      thresholds = .error e := by
    by_cases hdim : width % 8 ≠ 0 ∨ height % 8 ≠ 0
    · exact ⟨.dimensionError, by
        simp only [convert_grayscale_to_tile_set]
        rw [if_pos hdim]⟩
    · push_neg at hdim
      obtain ⟨hw8, hh8⟩ := hdim
      simp only [convert_grayscale_to_tile_set]
      rw [if_neg (by omega)]
      have h1 : (palette_matrix width height pixels palette
          thresholds).length = height :=
        palette_matrix_length width height pixels palette thresholds
      by_cases hh0 : height = 0
      · have hg : grid_8x8_segments (palette_matrix width height pixels
            palette thresholds) = .error .heightAssert := by
          simp only [grid_8x8_segments, h1]
          rw [if_pos (by omega)]
        refine ⟨.gridAssert .heightAssert, ?_⟩
        rw [hg]
      · have hw0 : width = 0 := by
          rcases h with h | h | h | h <;> omega
        have h2 : (palette_matrix width height pixels palette
            thresholds).headI.length = width :=
          palette_matrix_headI_length width height pixels palette thresholds
            (by omega)
        have hg : grid_8x8_segments (palette_matrix width height pixels
            palette thresholds) = .error .widthAssert := by
          simp only [grid_8x8_segments, h1, h2]
          rw [if_neg (by omega), if_pos (by omega)]
        refine ⟨.gridAssert .widthAssert, ?_⟩
        rw [hg]
  obtain ⟨e, he⟩ := hconv
  refine ⟨⟨e, he⟩, ?_, ?_⟩ <;> simp [main_run, he, main_emit]

/-- Witness for C6 on a 10×16 image (width not a multiple of 8). -/
theorem C6_dimension_failure_witness :
    (∃ e, convert_grayscale_to_tile_set 10 16 (fun _ _ => 0) DEFAULT_PALETTE
        DEFAULT_THRESHOLDS = .error e) ∧
    (main_run 10 16 (fun _ _ => 0) DEFAULT_PALETTE
      DEFAULT_THRESHOLDS).tileSetFile = none ∧
    (main_run 10 16 (fun _ _ => 0) DEFAULT_PALETTE
      DEFAULT_THRESHOLDS).indicesFile = none :=
  C6_dimension_failure 10 16 (fun _ _ => 0) DEFAULT_PALETTE
    DEFAULT_THRESHOLDS (by decide)

/-- C7 counterexample: on the 16×8 all-white image with default palette and
thresholds, the claimed plane-1 byte `0x00` is wrong — value 255 quantizes to
palette index 3, whose bit 0 is 1, so no row has plane-1 byte `0x00`. -/
theorem C7_counterexample :
    (image_encoded_tiles 16 8 (fun _ _ => 255) DEFAULT_PALETTE
      DEFAULT_THRESHOLDS).length = 2 ∧
    ¬ (∀ t ∈ image_encoded_tiles 16 8 (fun _ _ => 255) DEFAULT_PALETTE
        DEFAULT_THRESHOLDS, ∀ r : Fin 8, t.getD (2 * r.1) 0 = 0) := by
  decide

/-- C7 (amended): the 16×8 all-white image with default palette and
thresholds yields 2 encoded tiles, and every row of each has plane-1 byte
`0xFF` and plane-2 byte `0xFF` (value 255 → palette index 3 → bits (1,1)). -/
theorem C7_all_white_scenario :
    (image_encoded_tiles 16 8 (fun _ _ => 255) DEFAULT_PALETTE
      DEFAULT_THRESHOLDS).length = 2 ∧
    ∀ t ∈ image_encoded_tiles 16 8 (fun _ _ => 255) DEFAULT_PALETTE
      DEFAULT_THRESHOLDS, ∀ r : Fin 8,
        t.getD (2 * r.1) 0 = 255 ∧ t.getD (2 * r.1 + 1) 0 = 255 := by
  decide

/-- On duplicate-free input, `list(set(...))` (in first-occurrence order)
returns the input itself. -/
theorem set_list_eq_of_nodup [DecidableEq α] (l : List α) (h : l.Nodup) :
    set_list l = l := by
  suffices hgen : ∀ (l' acc : List α), (acc ++ l').Nodup →
      l'.foldl set_insert acc = acc ++ l' by
    simpa using hgen l [] (by simpa using h)
  intro l'
  induction l' with
  | nil =>
    intro acc _
    simp
  | cons x xs ih =>
    intro acc hnd
    have hx : x ∉ acc := by
      intro hmem
      rcases List.nodup_append.1 hnd with ⟨_, _, hdisj⟩
      exact hdisj hmem (List.mem_cons_self x xs)
    simp only [List.foldl_cons, set_insert, if_neg hx]
    have hnd' : ((acc ++ [x]) ++ xs).Nodup := by
      simpa [List.append_assoc] using hnd
    rw [ih (acc ++ [x]) hnd']
    simp

/-- On a duplicate-free list the position dictionary inverts indexing. -/
theorem index_lookup_getElem_of_nodup [DecidableEq α] (l : List α)
    (h : l.Nodup) : ∀ (i : ℕ) (hi : i < l.length),
      index_lookup l (l.get ⟨i, hi⟩) = i := by
  induction l with
  | nil =>
    intro i hi
    simp at hi
  | cons x xs ih =>
    intro i hi
    cases i with
    | zero => simp [index_lookup]
    | succ i =>
      have hi' : i < xs.length := by
        simp only [List.length_cons] at hi
        omega
      have hne : ¬x = xs.get ⟨i, hi'⟩ := by
        intro he
        have : x ∈ xs := by
          rw [he]
          exact List.get_mem xs i hi'
        exact (List.nodup_cons.1 h).1 this
      simp only [index_lookup, List.get_cons_succ, if_neg hne]
      rw [ih (List.nodup_cons.1 h).2 i hi']

/-- `main_emit` on a successful conversion, in closed form: tile-set bytes
always written, indices bytes written only when every index fits in a byte,
warning exactly when the unique-tile count exceeds `MAX_GB_TILES`. -/
theorem main_emit_ok (tile_set : List (List ℕ)) (indices : List ℕ) :
    main_emit (.ok (tile_set, indices)) =
      if indices.all fun i => i < 256 then
        ⟨some tile_set.flatten, some indices,
          decide (MAX_GB_TILES < tile_set.length), true⟩
      else
        ⟨some tile_set.flatten, none,
          decide (MAX_GB_TILES < tile_set.length), false⟩ := by
  cases h : indices.all fun i => i < 256 with
  | false =>
    simp [main_emit, write_indices_to_file, write_tile_set_to_file, h]
  | true =>
    simp [main_emit, write_indices_to_file, write_tile_set_to_file, h]

/-- The 257 tiles of `big_tile_list` are pairwise distinct. -/
theorem big_tile_list_nodup : big_tile_list.Nodup := by
  have hinj : Function.Injective
      (fun n : ℕ => n % 256 :: n / 256 :: List.replicate 14 0) := by
    intro a b hab
    simp only [List.cons.injEq] at hab
    omega
  exact List.Nodup.map hinj (List.nodup_range 257)

set_option maxRecDepth 4000 in
/-- C5: with the 257 pairwise-distinct tiles of `big_tile_list` (reachable
from an 8×2056-pixel image), deduplication yields 257 unique tiles; `main`
prints the capacity warning and writes the tile-set file, but
`bytes(indices)` hits the out-of-range index 256 and raises an uncaught
`ValueError`: the indices bytes are never written and the run does not
terminate normally — contradicting "processing continues and both output
files are still produced". -/
theorem C5_capacity_overflow_crash :
    (main_emit (.ok (reduce_tile_set big_tile_list))).capacityWarning =
      true ∧
    (main_emit (.ok (reduce_tile_set big_tile_list))).tileSetFile =
      some (write_tile_set_to_file (reduce_tile_set big_tile_list).1) ∧
    (main_emit (.ok (reduce_tile_set big_tile_list))).indicesFile = none ∧
    (main_emit (.ok (reduce_tile_set big_tile_list))).exitOk = false := by
  have hlen : big_tile_list.length = 257 := by
    simp [big_tile_list]
  have hset : set_list big_tile_list = big_tile_list :=
    set_list_eq_of_nodup _ big_tile_list_nodup
  have hpair : reduce_tile_set big_tile_list =
      (big_tile_list, big_tile_list.map (index_lookup big_tile_list)) := by
    simp only [reduce_tile_set, hset]
  have h256 : (256 : ℕ) ∈ big_tile_list.map (index_lookup big_tile_list) := by
    refine List.mem_map.2 ⟨big_tile_list.get ⟨256, by omega⟩, ?_, ?_⟩
    · exact List.get_mem big_tile_list 256 (by omega)
    · exact index_lookup_getElem_of_nodup big_tile_list big_tile_list_nodup
        256 (by omega)
  have hall : ((big_tile_list.map (index_lookup big_tile_list)).all
      fun i => i < 256) = false :=
    List.all_eq_false.2 ⟨256, h256, by decide⟩
  have hwarn : decide (MAX_GB_TILES < big_tile_list.length) = true := by
    rw [hlen]
    decide
  rw [hpair, main_emit_ok, if_neg (by rw [hall]; exact Bool.false_ne_true),
    hwarn]
  exact ⟨rfl, rfl, rfl, rfl⟩

end ImageToGbTiles
